import Mathlib

/-!
Shallow embedding of the `double-linked` crate (a generational index list:
`src/lib.rs` and `src/iter.rs`) together with proofs about its operations.

The Rust `Vec<Entry<T>>` backing store is modelled as a `List (Entry α)`,
machine `usize` indices as `Nat`, fallible lookups (`Vec::get`) as `List`
`[·]?` lookups, and every `panic!` as an `Option`-`none` (for the push
operations) or an explicit `panicked` iteration outcome.  Each definition
mirrors the corresponding Rust function statement by statement.
-/

namespace DoubleLinked

/-- Mirrors Rust `OccupiedEntry<T>`: the stored item, the generation stamp
at insertion time, and the optional forward/backward slot indices. -/
structure OccupiedEntry (α : Type) where
  item : α
  generation : Nat
  next : Option Nat
  prev : Option Nat
  deriving DecidableEq

/-- Mirrors Rust `Entry<T>`: a slot is either free (threaded on the free
list) or occupied. -/
inductive Entry (α : Type) where
  | free (next_free : Option Nat)
  | occupied (entry : OccupiedEntry α)
  deriving DecidableEq

/-- Mirrors Rust `IndexList<T>`. -/
structure IndexList (α : Type) where
  contents : List (Entry α)
  generation : Nat
  next_free : Option Nat
  head : Option Nat
  tail : Option Nat
  deriving DecidableEq

/-- Mirrors Rust `Index<T>` (the `PhantomData` marker is erased). -/
structure Index where
  index : Nat
  generation : Nat
  deriving DecidableEq

/-- Mirrors `IndexList::new` / `Default::default`. -/
def IndexList.new (α : Type) : IndexList α :=
  { contents := [], generation := 0, next_free := none, head := none, tail := none }

/-- Mirrors `IndexList::head`: dereference the `head` slot index. -/
def IndexList.headVal (s : IndexList α) : Option α :=
  match s.head with
  | none => none
  | some index =>
    match s.contents[index]? with
    | some (.occupied e) => some e.item
    | _ => none

/-- Mirrors `IndexList::tail`: dereference the `tail` slot index. -/
def IndexList.tailVal (s : IndexList α) : Option α :=
  match s.tail with
  | none => none
  | some index =>
    match s.contents[index]? with
    | some (.occupied e) => some e.item
    | _ => none

/-- Mirrors `IndexList::get`: lookup by handle, validated by generation. -/
def IndexList.get (s : IndexList α) (idx : Index) : Option α :=
  match s.contents[idx.index]? with
  | some (.occupied e) =>
    if e.generation = idx.generation then some e.item else none
  | _ => none

/-- Mirrors `IndexList::get_mut`.  In this functional embedding the returned
mutable borrow is modelled by the looked-up value; the list itself is not
changed by the lookup (which in Rust has no side effect either). -/
def IndexList.getMut (s : IndexList α) (idx : Index) : Option α :=
  match s.contents[idx.index]? with
  | some (.occupied e) =>
    if e.generation = idx.generation then some e.item else none
  | _ => none

/-- Mirrors the private allocator `IndexList::push`: reuse the free-list
head slot if one exists, otherwise append.  Returns `none` on the
`panic!("Corrupted list: Occupied next_free")` path (and on the
out-of-bounds indexing panic of `self.contents[index]`). -/
def IndexList.push (s : IndexList α) (newEntry : Entry α) : Option (IndexList α × Nat) :=
  match s.next_free with
  | none =>
    some ({ s with contents := s.contents ++ [newEntry] }, s.contents.length)
  | some index =>
    match s.contents[index]? with
    | some (.free nf) =>
      some ({ s with next_free := nf, contents := s.contents.set index newEntry }, index)
    | _ => none

/-- The entry built at the top of `IndexList::push_back`: no links when
the list has no head, otherwise `prev` is the current tail. -/
def newBackEntry (s : IndexList α) (item : α) : Entry α :=
  match s.head with
  | none => .occupied { item := item, generation := s.generation, next := none, prev := none }
  | some _ => .occupied { item := item, generation := s.generation, next := none, prev := s.tail }

/-- The entry built at the top of `IndexList::push_front`: no links when
the list has no head, otherwise `next` is the current head. -/
def newFrontEntry (s : IndexList α) (item : α) : Entry α :=
  match s.head with
  | none => .occupied { item := item, generation := s.generation, next := none, prev := none }
  | some _ => .occupied { item := item, generation := s.generation, next := s.head, prev := none }

/-- `push_back`'s "Updating the next index for the item that was the tail"
block: if a tail exists, that slot's `next` is pointed at the new index.
`none` models `panic!("Corrupted list: Free tail")` (and the out-of-bounds
indexing panic). -/
def backTailRewire (s1 : IndexList α) (index : Nat) : Option (IndexList α) :=
  match s1.tail with
  | none => some s1
  | some tailIndex =>
    match s1.contents[tailIndex]? with
    | some (.occupied e) =>
      some { s1 with contents := s1.contents.set tailIndex (.occupied { e with next := some index }) }
    | _ => none

/-- `push_front`'s rewiring block.  The source reads
`if let Some(tail_index) = self.tail { ... entry.prev = Some(index) }`:
it updates the `prev` pointer of the slot the *tail* index points at, and
this embedding reproduces that literally. -/
def frontTailRewire (s1 : IndexList α) (index : Nat) : Option (IndexList α) :=
  match s1.tail with
  | none => some s1
  | some tailIndex =>
    match s1.contents[tailIndex]? with
    | some (.occupied e) =>
      some { s1 with contents := s1.contents.set tailIndex (.occupied { e with prev := some index }) }
    | _ => none

/-- Mirrors `IndexList::push_back`: allocate via `push`, rewire the old
tail's `next`, set `head` only if it was `none`, always move `tail` to the
new slot.  Returns `none` on the panic paths. -/
def IndexList.pushBack (s : IndexList α) (item : α) : Option (IndexList α × Index) :=
  match s.push (newBackEntry s item) with
  | none => none
  | some (s1, index) =>
    match backTailRewire s1 index with
    | none => none
    | some s2 =>
      let s3 := if s2.head = none then { s2 with head := some index } else s2
      let s4 := { s3 with tail := some index }
      some (s4, { index := index, generation := s4.generation })

/-- Mirrors `IndexList::push_front`: allocate via `push`, run the (tail-
directed) rewiring block, set `tail` only if it was `none`, always move
`head` to the new slot.  Returns `none` on the panic paths. -/
def IndexList.pushFront (s : IndexList α) (item : α) : Option (IndexList α × Index) :=
  match s.push (newFrontEntry s item) with
  | none => none
  | some (s1, index) =>
    match frontTailRewire s1 index with
    | none => none
    | some s2 =>
      let s3 := if s2.tail = none then { s2 with tail := some index } else s2
      let s4 := { s3 with head := some index }
      some (s4, { index := index, generation := s4.generation })

/-- The first rewiring block of `IndexList::remove` ("Changing the next
value for the previous item"): if the removed entry has a `prev` index and
that slot is occupied, its `next` becomes the removed entry's `next`, and
if the removed slot was the tail the tail moves to `prev`. -/
def removeRewirePrev (s : IndexList α) (idx : Index) (tailIndex : Nat)
    (prev next : Option Nat) : IndexList α :=
  match prev with
  | none => s
  | some p =>
    match s.contents[p]? with
    | some (.occupied pv) =>
      let sA := { s with contents := s.contents.set p (.occupied { pv with next := next }) }
      if idx.index = tailIndex then { sA with tail := some p } else sA
    | _ => s

/-- The second rewiring block of `IndexList::remove` ("Changing the
previous value for the next item"): if the removed entry has a `next`
index and that slot is occupied, its `prev` becomes the removed entry's
`prev`, and if the removed slot was the head the head moves to `next`. -/
def removeRewireNext (s1 : IndexList α) (idx : Index) (headIndex : Nat)
    (prev next : Option Nat) : IndexList α :=
  match next with
  | none => s1
  | some n =>
    match s1.contents[n]? with
    | some (.occupied nv) =>
      let sB := { s1 with contents := s1.contents.set n (.occupied { nv with prev := prev }) }
      if idx.index = headIndex then { sB with head := some n } else sB
    | _ => s1

/-- Mirrors `IndexList::remove`.  All the early `return None` paths leave
the state untouched; on success the neighbours are rewired (the two blocks
above, run in source order), the slot is replaced by a free entry pushed
on the free list, and the structure generation is incremented. -/
def IndexList.remove (s : IndexList α) (idx : Index) : Option α × IndexList α :=
  match s.head, s.tail with
  | some headIndex, some tailIndex =>
    match s.contents[idx.index]? with
    | some (.occupied v) =>
      if v.generation ≠ idx.generation then (none, s)
      else
        let s2 := removeRewireNext (removeRewirePrev s idx tailIndex v.prev v.next)
          idx headIndex v.prev v.next
        let s3 := { s2 with
          contents := s2.contents.set idx.index (.free s2.next_free),
          next_free := some idx.index,
          generation := s2.generation + 1 }
        match s2.contents[idx.index]? with
        | some (Entry.occupied rv) => (some rv.item, s3)
        | _ => (none, s3)
    | _ => (none, s)
  | _, _ => (none, s)

/-- Outcome of running an iterator to completion with a fuel bound:
it either finishes normally (the chain reached a `none` next-reference),
panics (`panic!("Corrupted list: ...")` on a free or out-of-bounds slot),
or runs out of fuel.  The items yielded before the end are recorded. -/
inductive IterOutcome (α : Type) where
  | finished (items : List α)
  | panicked (items : List α)
  | outOfFuel
  deriving DecidableEq

/-- Mirrors repeated calls to `ForwardIter::next` (`src/iter.rs`), starting
from the given next-index, running at most `fuel` yielding steps. -/
def iterFrom (s : IndexList α) : Option Nat → Nat → IterOutcome α
  | none, _ => .finished []
  | some _, 0 => .outOfFuel
  | some i, fuel + 1 =>
    match s.contents[i]? with
    | some (.occupied e) =>
      match iterFrom s e.next fuel with
      | .finished items => .finished (e.item :: items)
      | .panicked items => .panicked (e.item :: items)
      | .outOfFuel => .outOfFuel
    | _ => .panicked []

/-- Mirrors repeated calls to `ForwardIntoIter::next` (`src/iter.rs`):
each visited slot is first replaced by `Entry::Free { next_free: None }`
(the `mem::replace`), then its item is yielded. -/
def intoIterFrom : IndexList α → Option Nat → Nat → IterOutcome α
  | _, none, _ => .finished []
  | _, some _, 0 => .outOfFuel
  | s, some i, fuel + 1 =>
    match s.contents[i]? with
    | some (.occupied e) =>
      match intoIterFrom { s with contents := s.contents.set i (.free none) } e.next fuel with
      | .finished items => .finished (e.item :: items)
      | .panicked items => .panicked (e.item :: items)
      | .outOfFuel => .outOfFuel
    | _ => .panicked []

/-- Mirrors `IndexList::iter().collect()`: a full borrowing traversal from
`head`.  The fuel `s.contents.length` suffices for any non-cyclic chain,
since a well-formed chain visits each slot at most once. -/
def IndexList.iterAll (s : IndexList α) : IterOutcome α :=
  iterFrom s s.head s.contents.length

/-- Mirrors `list.into_iter().collect()`: a full consuming traversal. -/
def IndexList.intoIterAll (s : IndexList α) : IterOutcome α :=
  intoIterFrom s s.head s.contents.length

/-- A public-API operation (the state-changing ones).  `rem i g` is
`remove` called with the handle `⟨i, g⟩`; `get`/`get_mut` do not change
the state and need no operation constructor. -/
inductive Op (α : Type) where
  | pushB (v : α)
  | pushF (v : α)
  | rem (i g : Nat)
  deriving DecidableEq

/-- Apply one operation; `none` means the operation panicked. -/
def applyOp (s : IndexList α) : Op α → Option (IndexList α)
  | .pushB v => (s.pushBack v).map Prod.fst
  | .pushF v => (s.pushFront v).map Prod.fst
  | .rem i g => some (s.remove { index := i, generation := g }).2

/-- Run a list of operations from a given state. -/
def runFrom (s : IndexList α) : List (Op α) → Option (IndexList α)
  | [] => some s
  | op :: ops =>
    match applyOp s op with
    | none => none
    | some s' => runFrom s' ops

/-- Run a list of operations from the empty list `IndexList::new()`. -/
def runOps (ops : List (Op α)) : Option (IndexList α) :=
  runFrom (IndexList.new α) ops

/-- A state is reachable when some panic-free operation sequence produces
it from the empty list. -/
def Reachable (s : IndexList α) : Prop :=
  ∃ ops, runOps ops = some s

/-- Run a list of operations while counting how many `remove` calls
succeeded (returned a value). -/
def opRemoveCount (s : IndexList α) : Op α → Nat
  | .pushB _ => 0
  | .pushF _ => 0
  | .rem i g =>
    match (s.remove { index := i, generation := g }).1 with
    | some _ => 1
    | none => 0

/-- Like `runFrom`, but also returns the number of successful removals
performed along the way. -/
def runCountFrom (s : IndexList α) : List (Op α) → Option (IndexList α × Nat)
  | [] => some (s, 0)
  | op :: ops =>
    match applyOp s op with
    | none => none
    | some s' =>
      match runCountFrom s' ops with
      | none => none
      | some (t, n) => some (t, opRemoveCount s op + n)

/-- Observer: the `prev` link stored in the slot at position `i`
(`none` when the slot is free or out of bounds). -/
def prevAt (s : IndexList α) (i : Nat) : Option (Option Nat) :=
  match s.contents[i]? with
  | some (.occupied e) => some e.prev
  | _ => none

/-- Observer: the `next` link stored in the slot at position `i`. -/
def nextAt (s : IndexList α) (i : Nat) : Option (Option Nat) :=
  match s.contents[i]? with
  | some (.occupied e) => some e.next
  | _ => none

/-- Observer: `true` when no slot of the backing sequence is occupied. -/
def allSlotsFree (s : IndexList α) : Bool :=
  s.contents.all fun e =>
    match e with
    | .free _ => true
    | .occupied _ => false

/-- Observer: did the iteration run to its normal end (a `none`
next-reference), as opposed to panicking or running out of fuel? -/
def IterOutcome.isFinished : IterOutcome α → Bool
  | .finished _ => true
  | .panicked _ => false
  | .outOfFuel => false

/-- Push every value of `vs`, in order, with `push_back`. -/
def pushBackAll (s : IndexList α) : List α → Option (IndexList α)
  | [] => some s
  | v :: vs =>
    match s.pushBack v with
    | none => none
    | some (s', _) => pushBackAll s' vs

/-- Push every value of `vs`, in order, with `push_front`. -/
def pushFrontAll (s : IndexList α) : List α → Option (IndexList α)
  | [] => some s
  | v :: vs =>
    match s.pushFront v with
    | none => none
    | some (s', _) => pushFrontAll s' vs

/-- Invariant: every occupied slot's stored generation is at most the
structure generation. -/
def GenInv (s : IndexList α) : Prop :=
  ∀ (j : Nat) (e : OccupiedEntry α),
    s.contents[j]? = some (Entry.occupied e) → e.generation ≤ s.generation

/-- The handle `h` currently refers to a live occupant holding `v`. -/
def Live (h : Index) (v : α) (s : IndexList α) : Prop :=
  ∃ e : OccupiedEntry α, s.contents[h.index]? = some (Entry.occupied e) ∧
    e.generation = h.generation ∧ e.item = v

/-- The handle `h` is permanently stale: its generation is strictly below
the structure generation and its slot does not hold a matching occupant. -/
def Stale (h : Index) (s : IndexList α) : Prop :=
  h.generation < s.generation ∧
  ∀ e : OccupiedEntry α,
    s.contents[h.index]? = some (Entry.occupied e) → e.generation ≠ h.generation

/-- `t` keeps `s`'s generation, free-list head and sequence length, keeps
every free slot as is, and keeps every occupied slot occupied with the same
item and generation (only the `prev`/`next` links may differ). -/
def SlotsSimilar (s t : IndexList α) : Prop :=
  t.generation = s.generation ∧ t.next_free = s.next_free ∧
  t.contents.length = s.contents.length ∧
  (∀ (j : Nat) (nf : Option Nat),
    s.contents[j]? = some (Entry.free nf) → t.contents[j]? = some (Entry.free nf)) ∧
  (∀ (j : Nat) (e : OccupiedEntry α), s.contents[j]? = some (Entry.occupied e) →
    ∃ e' : OccupiedEntry α, t.contents[j]? = some (Entry.occupied e') ∧
      e'.item = e.item ∧ e'.generation = e.generation)

/-- The state after any panic-free sequence of `push_back`s of `l` from
the empty list: slot `i` holds `l[i]` with generation `0`, the forward
links run `0 → 1 → ⋯ → length-1 → none`, head is slot `0` and tail the
last slot. -/
def BackShape (s : IndexList α) (l : List α) : Prop :=
  s.next_free = none ∧ s.generation = 0 ∧ s.contents.length = l.length ∧
  (∀ i, i < l.length →
    ∃ v, l[i]? = some v ∧
      s.contents[i]? = some (.occupied
        { item := v, generation := 0,
          next := if i + 1 < l.length then some (i + 1) else none,
          prev := if i = 0 then none else some (i - 1) })) ∧
  s.head = (if l.length = 0 then none else some 0) ∧
  s.tail = (if l.length = 0 then none else some (l.length - 1))

/-- The state after pushing `l` (in order) with `push_front` from the
empty list: slot `k` holds the `k`-th pushed value, forward links run from
the last slot down to slot `0`, and — reflecting the source's rewiring of
the slot the *tail* points at — only slot `0` ever has a non-`none` `prev`
link, namely the most recently pushed slot once two slots exist. -/
def FrontShape (s : IndexList α) (l : List α) : Prop :=
  s.next_free = none ∧ s.generation = 0 ∧ s.contents.length = l.length ∧
  (∀ k, k < l.length →
    ∃ v, l[k]? = some v ∧
      s.contents[k]? = some (.occupied
        { item := v, generation := 0,
          next := if k = 0 then none else some (k - 1),
          prev := if k = 0 ∧ 2 ≤ l.length then some (l.length - 1) else none })) ∧
  s.head = (if l.length = 0 then none else some (l.length - 1)) ∧
  s.tail = (if l.length = 0 then none else some 0)

/-- Concrete state for the push-front rewiring bug: `push_front 100`,
`push_front 200`, `push_front 300`. -/
def c1State : IndexList Nat :=
  (runOps [Op.pushF 100, Op.pushF 200, Op.pushF 300]).getD (IndexList.new Nat)

/-- Concrete state for the sole-element-removal bug: `push_back 100`,
then `remove` that handle. -/
def c3State : IndexList Nat :=
  (runOps [Op.pushB 100, Op.rem 0 0]).getD (IndexList.new Nat)

/-- Concrete state showing a head accessor returning absent while an
orphaned element is still stored: three `push_front`s, then removing the
tail and then the head. -/
def c3Orphan : IndexList Nat :=
  (runOps [Op.pushF 100, Op.pushF 200, Op.pushF 300, Op.rem 0 0, Op.rem 2 0]).getD
    (IndexList.new Nat)

/-- Concrete state with a self-loop in the `next` links: `push_back 100`,
remove it, `push_back 200`.  The stale tail index makes `push_back` point
the reused slot's `next` at itself. -/
def c4State : IndexList Nat :=
  (runOps [Op.pushB 100, Op.rem 0 0, Op.pushB 200]).getD (IndexList.new Nat)

/-- Concrete one-element state: `push_back 100` onto the empty list. -/
def sOne : IndexList Nat :=
  (runOps [Op.pushB 100]).getD (IndexList.new Nat)

/-! ### Helper lemmas about `SlotsSimilar` and the rewiring blocks -/

theorem slotsSimilar_refl (s : IndexList α) : SlotsSimilar s s :=
  ⟨rfl, rfl, rfl, fun _ _ h => h, fun _ e h => ⟨e, h, rfl, rfl⟩⟩

theorem slotsSimilar_trans {s t u : IndexList α}
    (h1 : SlotsSimilar s t) (h2 : SlotsSimilar t u) : SlotsSimilar s u := by
  obtain ⟨g1, n1, l1, f1, o1⟩ := h1
  obtain ⟨g2, n2, l2, f2, o2⟩ := h2
  refine ⟨g2.trans g1, n2.trans n1, l2.trans l1, fun j nf h => f2 j nf (f1 j nf h), ?_⟩
  intro j e h
  obtain ⟨e', he', hi', hg'⟩ := o1 j e h
  obtain ⟨e'', he'', hi'', hg''⟩ := o2 j e' he'
  exact ⟨e'', he'', hi''.trans hi', hg''.trans hg'⟩

theorem slotsSimilar_set {s t : IndexList α} {p : Nat} {pv pv' : OccupiedEntry α}
    (hc : t.contents = s.contents.set p (Entry.occupied pv'))
    (hl : s.contents[p]? = some (Entry.occupied pv))
    (hitem : pv'.item = pv.item) (hgen : pv'.generation = pv.generation)
    (hg : t.generation = s.generation) (hn : t.next_free = s.next_free) :
    SlotsSimilar s t := by
  have hp : p < s.contents.length := by
    have := List.getElem?_eq_some_iff.mp hl
    exact this.1
  refine ⟨hg, hn, by rw [hc, List.length_set], ?_, ?_⟩
  · intro j nf h
    by_cases hj : p = j
    · subst hj; rw [hl] at h; cases h
    · rw [hc, List.getElem?_set_ne hj]; exact h
  · intro j e h
    by_cases hj : p = j
    · subst hj
      rw [hl] at h
      injection h with h
      injection h with h
      subst h
      exact ⟨pv', by rw [hc, List.getElem?_set_self hp], hitem, hgen⟩
    · exact ⟨e, by rw [hc, List.getElem?_set_ne hj]; exact h, rfl, rfl⟩

theorem removeRewirePrev_similar (s : IndexList α) (idx : Index) (t : Nat)
    (p n : Option Nat) : SlotsSimilar s (removeRewirePrev s idx t p n) := by
  unfold removeRewirePrev
  split
  · exact slotsSimilar_refl s
  · split
    · rename_i pv heq
      split
      · exact slotsSimilar_set rfl heq rfl rfl rfl rfl
      · exact slotsSimilar_set rfl heq rfl rfl rfl rfl
    · exact slotsSimilar_refl s

theorem removeRewireNext_similar (s : IndexList α) (idx : Index) (hd : Nat)
    (p n : Option Nat) : SlotsSimilar s (removeRewireNext s idx hd p n) := by
  unfold removeRewireNext
  split
  · exact slotsSimilar_refl s
  · split
    · rename_i nv heq
      split
      · exact slotsSimilar_set rfl heq rfl rfl rfl rfl
      · exact slotsSimilar_set rfl heq rfl rfl rfl rfl
    · exact slotsSimilar_refl s

/-! ### Specification lemmas for `remove` -/

theorem remove_success_spec (s : IndexList α) (idx : Index) (v : OccupiedEntry α)
    (hi ti : Nat)
    (hh : s.head = some hi) (ht : s.tail = some ti)
    (hc : s.contents[idx.index]? = some (Entry.occupied v))
    (hg : v.generation = idx.generation) :
    (s.remove idx).1 = some v.item ∧
    ((s.remove idx).2).generation = s.generation + 1 ∧
    ((s.remove idx).2).next_free = some idx.index ∧
    ((s.remove idx).2).contents[idx.index]? = some (Entry.free s.next_free) ∧
    ((s.remove idx).2).contents.length = s.contents.length ∧
    (∀ (j : Nat) (e' : OccupiedEntry α), j ≠ idx.index →
      ((s.remove idx).2).contents[j]? = some (Entry.occupied e') →
      ∃ e, s.contents[j]? = some (Entry.occupied e) ∧
        e.item = e'.item ∧ e.generation = e'.generation) ∧
    (∀ (j : Nat) (e : OccupiedEntry α), j ≠ idx.index →
      s.contents[j]? = some (Entry.occupied e) →
      ∃ e', ((s.remove idx).2).contents[j]? = some (Entry.occupied e') ∧
        e'.item = e.item ∧ e'.generation = e.generation) := by
  have hsim : SlotsSimilar s
      (removeRewireNext (removeRewirePrev s idx ti v.prev v.next) idx hi v.prev v.next) :=
    slotsSimilar_trans (removeRewirePrev_similar s idx ti v.prev v.next)
      (removeRewireNext_similar _ idx hi v.prev v.next)
  set s2 := removeRewireNext (removeRewirePrev s idx ti v.prev v.next) idx hi v.prev v.next
    with hs2
  obtain ⟨hgen2, hnf2, hlen2, hfree2, hocc2⟩ := hsim
  obtain ⟨rv, hrv, hrvitem, hrvgen⟩ := hocc2 idx.index v hc
  have hidxlt : idx.index < s.contents.length := by
    obtain ⟨h, _⟩ := List.getElem?_eq_some_iff.mp hc
    exact h
  have hidxlt2 : idx.index < s2.contents.length := by rw [hlen2]; exact hidxlt
  have hrem : s.remove idx =
      (some rv.item,
        { contents := s2.contents.set idx.index (Entry.free s2.next_free)
          generation := s2.generation + 1
          next_free := some idx.index
          head := s2.head
          tail := s2.tail }) := by
    simp only [IndexList.remove, hh, ht, hc]
    rw [if_neg (by simp [hg])]
    rw [← hs2, hrv]
  rw [hrem]
  refine ⟨by rw [hrvitem], by simp [hgen2], rfl, ?_, ?_, ?_, ?_⟩
  · simp only [List.getElem?_set_self hidxlt2, hnf2]
  · simp only [List.length_set, hlen2]
  · intro j e' hj hje
    simp only [List.getElem?_set_ne (fun h => hj h.symm)] at hje
    have hjlt : j < s.contents.length := by
      rw [← hlen2]
      obtain ⟨h, _⟩ := List.getElem?_eq_some_iff.mp hje
      exact h
    cases hej : s.contents[j]? with
    | none =>
      rw [List.getElem?_eq_none_iff] at hej
      omega
    | some ej =>
      cases ej with
      | free nf =>
        have := hfree2 j nf hej
        rw [this] at hje
        cases hje
      | occupied e =>
        obtain ⟨e'', he'', hi'', hg''⟩ := hocc2 j e hej
        rw [he''] at hje
        injection hje with hje
        injection hje with hje
        subst hje
        exact ⟨e, rfl, hi''.symm, hg''.symm⟩
  · intro j e hj hje
    obtain ⟨e'', he'', hi'', hg''⟩ := hocc2 j e hje
    refine ⟨e'', ?_, hi'', hg''⟩
    simp only [List.getElem?_set_ne (fun h => hj h.symm)]
    exact he''

theorem remove_fst_some_of_guards (s : IndexList α) (idx : Index) (v : OccupiedEntry α)
    (hi ti : Nat)
    (hh : s.head = some hi) (ht : s.tail = some ti)
    (hc : s.contents[idx.index]? = some (Entry.occupied v))
    (hg : v.generation = idx.generation) :
    (s.remove idx).1 = some v.item :=
  (remove_success_spec s idx v hi ti hh ht hc hg).1

theorem remove_fail_eq (s : IndexList α) (idx : Index)
    (h : (s.remove idx).1 = none) : (s.remove idx).2 = s := by
  cases hh : s.head with
  | none => simp [IndexList.remove, hh]
  | some hi =>
    cases ht : s.tail with
    | none => simp [IndexList.remove, hh, ht]
    | some ti =>
      cases hc : s.contents[idx.index]? with
      | none => simp [IndexList.remove, hh, ht, hc]
      | some e =>
        cases e with
        | free nf => simp [IndexList.remove, hh, ht, hc]
        | occupied v =>
          by_cases hg : v.generation = idx.generation
          · rw [remove_fst_some_of_guards s idx v hi ti hh ht hc hg] at h
            cases h
          · simp [IndexList.remove, hh, ht, hc, hg]

theorem remove_fst_eq_none (s : IndexList α) (idx : Index)
    (h : ∀ e : OccupiedEntry α,
      s.contents[idx.index]? = some (Entry.occupied e) → e.generation ≠ idx.generation) :
    (s.remove idx).1 = none := by
  cases hh : s.head with
  | none => simp [IndexList.remove, hh]
  | some hi =>
    cases ht : s.tail with
    | none => simp [IndexList.remove, hh, ht]
    | some ti =>
      cases hc : s.contents[idx.index]? with
      | none => simp [IndexList.remove, hh, ht, hc]
      | some e =>
        cases e with
        | free nf => simp [IndexList.remove, hh, ht, hc]
        | occupied v => simp [IndexList.remove, hh, ht, hc, h v hc]

/-! ### Specification lemmas for the push operations -/

theorem push_spec (s : IndexList α) (ne : Entry α) (s1 : IndexList α) (i : Nat)
    (hp : s.push ne = some (s1, i)) :
    s1.generation = s.generation ∧ s1.head = s.head ∧ s1.tail = s.tail ∧
    s1.contents[i]? = some ne ∧
    (∀ j, j ≠ i → s1.contents[j]? = s.contents[j]?) ∧
    (s.contents[i]? = none ∨ ∃ nf, s.contents[i]? = some (Entry.free nf)) := by
  unfold IndexList.push at hp
  cases hnf : s.next_free with
  | none =>
    rw [hnf] at hp
    simp only [Option.some.injEq, Prod.mk.injEq] at hp
    obtain ⟨hs1, hi⟩ := hp
    subst hs1
    subst hi
    refine ⟨rfl, rfl, rfl, List.getElem?_concat_length s.contents ne, ?_, ?_⟩
    · intro j hj
      rcases Nat.lt_or_ge j s.contents.length with hlt | hge
      · exact List.getElem?_append_left hlt
      · have h1 : (s.contents ++ [ne]).length ≤ j := by
          rw [List.length_append]
          simp only [List.length_cons, List.length_nil]
          omega
        rw [List.getElem?_eq_none h1, List.getElem?_eq_none hge]
    · exact Or.inl (List.getElem?_eq_none (Nat.le_refl _))
  | some index =>
    cases hl : s.contents[index]? with
    | none =>
      simp only [hnf, hl] at hp
      cases hp
    | some e =>
      cases e with
      | occupied _ =>
        simp only [hnf, hl] at hp
        cases hp
      | free nf =>
        simp only [hnf, hl, Option.some.injEq, Prod.mk.injEq] at hp
        obtain ⟨hs1, hi⟩ := hp
        subst hs1
        subst hi
        have hlt : index < s.contents.length := by
          obtain ⟨h, _⟩ := List.getElem?_eq_some_iff.mp hl
          exact h
        refine ⟨rfl, rfl, rfl, List.getElem?_set_self hlt, ?_, Or.inr ⟨nf, hl⟩⟩
        intro j hj
        exact List.getElem?_set_ne (Ne.symm hj)

theorem slotsSimilar_backward {s t : IndexList α} (hsim : SlotsSimilar s t) :
    ∀ (j : Nat) (e' : OccupiedEntry α), t.contents[j]? = some (Entry.occupied e') →
      ∃ e, s.contents[j]? = some (Entry.occupied e) ∧
        e.item = e'.item ∧ e.generation = e'.generation := by
  obtain ⟨_, _, hlen, hfree, hocc⟩ := hsim
  intro j e' hje
  have hjlt : j < s.contents.length := by
    rw [← hlen]
    obtain ⟨h, _⟩ := List.getElem?_eq_some_iff.mp hje
    exact h
  cases hej : s.contents[j]? with
  | none =>
    rw [List.getElem?_eq_none_iff] at hej
    omega
  | some ej =>
    cases ej with
    | free nf =>
      rw [hfree j nf hej] at hje
      cases hje
    | occupied e =>
      obtain ⟨e'', he'', hi'', hg''⟩ := hocc j e hej
      rw [he''] at hje
      injection hje with hje
      injection hje with hje
      subst hje
      exact ⟨e, rfl, hi''.symm, hg''.symm⟩

theorem newBackEntry_shape (s : IndexList α) (item : α) :
    ∃ e₀ : OccupiedEntry α, newBackEntry s item = Entry.occupied e₀ ∧
      e₀.item = item ∧ e₀.generation = s.generation := by
  unfold newBackEntry
  cases s.head
  · exact ⟨_, rfl, rfl, rfl⟩
  · exact ⟨_, rfl, rfl, rfl⟩

theorem newFrontEntry_shape (s : IndexList α) (item : α) :
    ∃ e₀ : OccupiedEntry α, newFrontEntry s item = Entry.occupied e₀ ∧
      e₀.item = item ∧ e₀.generation = s.generation := by
  unfold newFrontEntry
  cases s.head
  · exact ⟨_, rfl, rfl, rfl⟩
  · exact ⟨_, rfl, rfl, rfl⟩

theorem backTailRewire_spec (s1 : IndexList α) (index : Nat) (s2 : IndexList α)
    (hr : backTailRewire s1 index = some s2) :
    SlotsSimilar s1 s2 ∧ s2.head = s1.head ∧ s2.tail = s1.tail := by
  unfold backTailRewire at hr
  cases ht : s1.tail with
  | none =>
    rw [ht] at hr
    injection hr with hr
    subst hr
    exact ⟨slotsSimilar_refl s1, rfl, ht⟩
  | some tailIndex =>
    cases hl : s1.contents[tailIndex]? with
    | none =>
      simp only [ht, hl] at hr
      cases hr
    | some e =>
      cases e with
      | free nf =>
        simp only [ht, hl] at hr
        cases hr
      | occupied e =>
        simp only [ht, hl, Option.some.injEq] at hr
        subst hr
        exact ⟨slotsSimilar_set rfl hl rfl rfl rfl rfl, rfl, rfl⟩

theorem frontTailRewire_spec (s1 : IndexList α) (index : Nat) (s2 : IndexList α)
    (hr : frontTailRewire s1 index = some s2) :
    SlotsSimilar s1 s2 ∧ s2.head = s1.head ∧ s2.tail = s1.tail := by
  unfold frontTailRewire at hr
  cases ht : s1.tail with
  | none =>
    rw [ht] at hr
    injection hr with hr
    subst hr
    exact ⟨slotsSimilar_refl s1, rfl, ht⟩
  | some tailIndex =>
    cases hl : s1.contents[tailIndex]? with
    | none =>
      simp only [ht, hl] at hr
      cases hr
    | some e =>
      cases e with
      | free nf =>
        simp only [ht, hl] at hr
        cases hr
      | occupied e =>
        simp only [ht, hl, Option.some.injEq] at hr
        subst hr
        exact ⟨slotsSimilar_set rfl hl rfl rfl rfl rfl, rfl, rfl⟩

theorem pushBack_spec (s : IndexList α) (v : α) (s' : IndexList α) (h : Index)
    (hp : s.pushBack v = some (s', h)) :
    s'.generation = s.generation ∧ h.generation = s.generation ∧
    (∃ e : OccupiedEntry α, s'.contents[h.index]? = some (Entry.occupied e) ∧
      e.item = v ∧ e.generation = s.generation) ∧
    (s.contents[h.index]? = none ∨ ∃ nf, s.contents[h.index]? = some (Entry.free nf)) ∧
    (∀ (j : Nat) (e' : OccupiedEntry α), j ≠ h.index →
      s'.contents[j]? = some (Entry.occupied e') →
      ∃ e, s.contents[j]? = some (Entry.occupied e) ∧
        e.item = e'.item ∧ e.generation = e'.generation) ∧
    (∀ (j : Nat) (e : OccupiedEntry α), j ≠ h.index →
      s.contents[j]? = some (Entry.occupied e) →
      ∃ e', s'.contents[j]? = some (Entry.occupied e') ∧
        e'.item = e.item ∧ e'.generation = e.generation) := by
  unfold IndexList.pushBack at hp
  cases hpu : s.push (newBackEntry s v) with
  | none =>
    rw [hpu] at hp
    cases hp
  | some pr =>
    obtain ⟨s1, index⟩ := pr
    obtain ⟨hg1, hh1, ht1, hat1, hother1, hwas1⟩ := push_spec s _ s1 index hpu
    cases hr : backTailRewire s1 index with
    | none =>
      simp only [hpu, hr] at hp
      cases hp
    | some s2 =>
      obtain ⟨hsim, hh2, ht2⟩ := backTailRewire_spec s1 index s2 hr
      simp only [hpu, hr, Option.some.injEq, Prod.mk.injEq] at hp
      obtain ⟨hs', hh⟩ := hp
      obtain ⟨e₀, he₀, he₀i, he₀g⟩ := newBackEntry_shape s v
      have hcontents : s'.contents = s2.contents := by
        rw [← hs']
        split <;> rfl
      have hgen' : s'.generation = s.generation := by
        rw [← hs']
        have : s2.generation = s.generation := by rw [hsim.1, hg1]
        split <;> simpa using this
      have hidx : h.index = index := by rw [← hh]
      have hhg : h.generation = s.generation := by
        rw [← hh]
        have : s2.generation = s.generation := by rw [hsim.1, hg1]
        split <;> simpa using this
      refine ⟨hgen', hhg, ?_, ?_, ?_, ?_⟩
      · obtain ⟨e', he', hi', hg'⟩ := hsim.2.2.2.2 index e₀ (by rw [hat1, he₀])
        refine ⟨e', by rw [hcontents, hidx]; exact he', by rw [hi', he₀i], by rw [hg', he₀g]⟩
      · rw [hidx]
        exact hwas1
      · intro j e' hj hje
        rw [hcontents] at hje
        obtain ⟨e, he, hi', hg'⟩ := slotsSimilar_backward hsim j e' hje
        rw [hother1 j (by rw [← hidx]; exact hj)] at he
        exact ⟨e, he, hi', hg'⟩
      · intro j e hj hje
        have hje1 : s1.contents[j]? = some (Entry.occupied e) := by
          rw [hother1 j (by rw [← hidx]; exact hj)]
          exact hje
        obtain ⟨e', he', hi', hg'⟩ := hsim.2.2.2.2 j e hje1
        exact ⟨e', by rw [hcontents]; exact he', hi', hg'⟩

theorem pushFront_spec (s : IndexList α) (v : α) (s' : IndexList α) (h : Index)
    (hp : s.pushFront v = some (s', h)) :
    s'.generation = s.generation ∧ h.generation = s.generation ∧
    (∃ e : OccupiedEntry α, s'.contents[h.index]? = some (Entry.occupied e) ∧
      e.item = v ∧ e.generation = s.generation) ∧
    (s.contents[h.index]? = none ∨ ∃ nf, s.contents[h.index]? = some (Entry.free nf)) ∧
    (∀ (j : Nat) (e' : OccupiedEntry α), j ≠ h.index →
      s'.contents[j]? = some (Entry.occupied e') →
      ∃ e, s.contents[j]? = some (Entry.occupied e) ∧
        e.item = e'.item ∧ e.generation = e'.generation) ∧
    (∀ (j : Nat) (e : OccupiedEntry α), j ≠ h.index →
      s.contents[j]? = some (Entry.occupied e) →
      ∃ e', s'.contents[j]? = some (Entry.occupied e') ∧
        e'.item = e.item ∧ e'.generation = e.generation) := by
  unfold IndexList.pushFront at hp
  cases hpu : s.push (newFrontEntry s v) with
  | none =>
    rw [hpu] at hp
    cases hp
  | some pr =>
    obtain ⟨s1, index⟩ := pr
    obtain ⟨hg1, hh1, ht1, hat1, hother1, hwas1⟩ := push_spec s _ s1 index hpu
    cases hr : frontTailRewire s1 index with
    | none =>
      simp only [hpu, hr] at hp
      cases hp
    | some s2 =>
      obtain ⟨hsim, hh2, ht2⟩ := frontTailRewire_spec s1 index s2 hr
      simp only [hpu, hr, Option.some.injEq, Prod.mk.injEq] at hp
      obtain ⟨hs', hh⟩ := hp
      obtain ⟨e₀, he₀, he₀i, he₀g⟩ := newFrontEntry_shape s v
      have hcontents : s'.contents = s2.contents := by
        rw [← hs']
        split <;> rfl
      have hgen' : s'.generation = s.generation := by
        rw [← hs']
        have : s2.generation = s.generation := by rw [hsim.1, hg1]
        split <;> simpa using this
      have hidx : h.index = index := by rw [← hh]
      have hhg : h.generation = s.generation := by
        rw [← hh]
        have : s2.generation = s.generation := by rw [hsim.1, hg1]
        split <;> simpa using this
      refine ⟨hgen', hhg, ?_, ?_, ?_, ?_⟩
      · obtain ⟨e', he', hi', hg'⟩ := hsim.2.2.2.2 index e₀ (by rw [hat1, he₀])
        refine ⟨e', by rw [hcontents, hidx]; exact he', by rw [hi', he₀i], by rw [hg', he₀g]⟩
      · rw [hidx]
        exact hwas1
      · intro j e' hj hje
        rw [hcontents] at hje
        obtain ⟨e, he, hi', hg'⟩ := slotsSimilar_backward hsim j e' hje
        rw [hother1 j (by rw [← hidx]; exact hj)] at he
        exact ⟨e, he, hi', hg'⟩
      · intro j e hj hje
        have hje1 : s1.contents[j]? = some (Entry.occupied e) := by
          rw [hother1 j (by rw [← hidx]; exact hj)]
          exact hje
        obtain ⟨e', he', hi', hg'⟩ := hsim.2.2.2.2 j e hje1
        exact ⟨e', by rw [hcontents]; exact he', hi', hg'⟩

/-! ### Inversion helpers for successful operations -/

theorem remove_fst_some_inv (s : IndexList α) (idx : Index) (v : α)
    (h : (s.remove idx).1 = some v) :
    ∃ (hi ti : Nat) (e : OccupiedEntry α), s.head = some hi ∧ s.tail = some ti ∧
      s.contents[idx.index]? = some (Entry.occupied e) ∧
      e.generation = idx.generation ∧ e.item = v := by
  cases hh : s.head with
  | none => simp [IndexList.remove, hh] at h
  | some hi =>
    cases ht : s.tail with
    | none => simp [IndexList.remove, hh, ht] at h
    | some ti =>
      cases hc : s.contents[idx.index]? with
      | none => simp [IndexList.remove, hh, ht, hc] at h
      | some e =>
        cases e with
        | free nf => simp [IndexList.remove, hh, ht, hc] at h
        | occupied e' =>
          by_cases hg : e'.generation = idx.generation
          · have := remove_fst_some_of_guards s idx e' hi ti hh ht hc hg
            rw [this] at h
            injection h with h
            exact ⟨hi, ti, e', rfl, rfl, rfl, hg, h⟩
          · simp [IndexList.remove, hh, ht, hc, hg] at h

theorem pushBack_alloc_index (s : IndexList α) (w : α) (s'' : IndexList α) (h' : Index)
    (hp : s.pushBack w = some (s'', h')) :
    ∃ s1, s.push (newBackEntry s w) = some (s1, h'.index) := by
  unfold IndexList.pushBack at hp
  cases hpu : s.push (newBackEntry s w) with
  | none =>
    rw [hpu] at hp
    cases hp
  | some pr =>
    obtain ⟨s1, index⟩ := pr
    cases hr : backTailRewire s1 index with
    | none =>
      simp only [hpu, hr] at hp
      cases hp
    | some s2 =>
      simp only [hpu, hr, Option.some.injEq, Prod.mk.injEq] at hp
      obtain ⟨_, hh⟩ := hp
      refine ⟨s1, ?_⟩
      rw [← hh]

/-! ### Claim theorems -/

/-- Claim C1: the spec states that `push_front` on a non-empty list
rewires the *old head* slot's `prev` to the new slot and leaves every
other slot's `prev` unchanged.  The code instead rewires the slot the
*tail* index points at: after `push_front 100`, `push_front 200`,
`push_front 300` (head slot 2, tail slot 0), the old head (slot 1) still
has `prev = none` — not the new position `some 2` the claim requires —
while the old tail (slot 0), whose `prev` the claim says is unchanged
(it was `some 1`), now holds `prev = some 2`. -/
theorem c1_pushFront_rewires_tail_prev_not_head_prev :
    runOps [Op.pushF (100 : Nat), Op.pushF 200, Op.pushF 300] = some c1State ∧
    c1State.head = some 2 ∧ c1State.tail = some 0 ∧
    prevAt c1State 1 = some none ∧
    prevAt c1State 0 = some (some 2) :=
  ⟨rfl, rfl, rfl, rfl, rfl⟩

/-- Claim C3: the spec requires that `head`/`tail` are none exactly when
no slot is occupied, and in particular that removing the sole element
leaves both as none.  The code's `remove` never resets `head`/`tail` to
`None`: after `push_back 100; remove`, every slot is free yet both
references still hold `some 0`.  The second scenario (three
`push_front`s, then removing tail and head) even leaves the `head()`
accessor returning absent while the orphaned value 200 is still stored
and retrievable by handle. -/
theorem c3_remove_sole_element_leaves_head_tail_set :
    runOps [Op.pushB (100 : Nat), Op.rem 0 0] = some c3State ∧
    allSlotsFree c3State = true ∧
    c3State.head = some 0 ∧ c3State.tail = some 0 ∧
    runOps [Op.pushF (100 : Nat), Op.pushF 200, Op.pushF 300, Op.rem 0 0, Op.rem 2 0] =
      some c3Orphan ∧
    c3Orphan.headVal = none ∧
    c3Orphan.get { index := 1, generation := 0 } = some 200 :=
  ⟨rfl, rfl, rfl, rfl, rfl, rfl, rfl⟩

/-- Claim C6: `get` (and `get_mut`) returns absent exactly when the
handle's position is out of bounds, the slot is free, or the slot is
occupied with a different generation; otherwise it returns the stored
value.  Both lookups are pure functions of the state in this embedding,
mirroring the side-effect-free Rust lookups, and agree with each other. -/
theorem c6_get_behaviour (s : IndexList α) (i g : Nat) :
    (s.get { index := i, generation := g } = none ↔
      s.contents.length ≤ i ∨
      (∃ nf, s.contents[i]? = some (Entry.free nf)) ∨
      (∃ e : OccupiedEntry α, s.contents[i]? = some (Entry.occupied e) ∧
        e.generation ≠ g)) ∧
    (∀ v, s.get { index := i, generation := g } = some v ↔
      ∃ e : OccupiedEntry α, s.contents[i]? = some (Entry.occupied e) ∧
        e.generation = g ∧ e.item = v) ∧
    s.getMut { index := i, generation := g } = s.get { index := i, generation := g } := by
  refine ⟨?_, ?_, rfl⟩
  · unfold IndexList.get
    cases hc : s.contents[i]? with
    | none =>
      have hlen : s.contents.length ≤ i := List.getElem?_eq_none_iff.mp hc
      simp [hlen]
    | some e =>
      cases e with
      | free nf => simp
      | occupied e =>
        have hlt : i < s.contents.length := by
          obtain ⟨h, _⟩ := List.getElem?_eq_some_iff.mp hc
          exact h
        by_cases hg : e.generation = g
        · simp [hg, Nat.not_le.mpr hlt]
        · simp [hg]
  · intro v
    unfold IndexList.get
    cases hc : s.contents[i]? with
    | none => simp
    | some e =>
      cases e with
      | free nf => simp
      | occupied e =>
        by_cases hg : e.generation = g
        · simp [hg]
        · simp [hg]

/-- Claim C9: for both iteration forms, a step whose current
next-reference points at a `Free` slot aborts with a panic (the
`panicked` outcome) — it neither finishes normally nor yields an absent
element. -/
theorem c9_iteration_panics_on_free_slot (s : IndexList α) (i : Nat) (nf : Option Nat)
    (fuel : Nat) (hfree : s.contents[i]? = some (Entry.free nf)) :
    iterFrom s (some i) (fuel + 1) = IterOutcome.panicked [] ∧
    intoIterFrom s (some i) (fuel + 1) = IterOutcome.panicked [] := by
  constructor
  · simp only [iterFrom, hfree]
  · simp only [intoIterFrom, hfree]

/-- Witness for C9 at a concrete reachable state: after `push_back 100`
and removing it, `head` still points at slot 0, which is free, so the
first iterator step panics. -/
theorem c9_iteration_panics_on_free_slot_witness :
    c3State.contents[0]? = some (Entry.free none) ∧
    iterFrom c3State (some 0) 1 = IterOutcome.panicked [] ∧
    intoIterFrom c3State (some 0) 1 = IterOutcome.panicked [] :=
  ⟨rfl, c9_iteration_panics_on_free_slot c3State 0 none 0 rfl⟩

/-- Claim C10: whenever `remove` returns absent, the entire state —
links, head, tail, free list, backing sequence and generation counter —
is exactly the prior state. -/
theorem c10_remove_absent_leaves_state_unchanged (s : IndexList α) (idx : Index)
    (h : (s.remove idx).1 = none) : (s.remove idx).2 = s :=
  remove_fail_eq s idx h

/-- Witness for C10: removing from the empty list returns absent and
leaves the empty list unchanged. -/
theorem c10_remove_absent_leaves_state_unchanged_witness :
    ((IndexList.new Nat).remove { index := 0, generation := 0 }).1 = none ∧
    ((IndexList.new Nat).remove { index := 0, generation := 0 }).2 = IndexList.new Nat :=
  ⟨rfl, c10_remove_absent_leaves_state_unchanged (IndexList.new Nat)
    { index := 0, generation := 0 } rfl⟩

/-- Claim C8: with a non-empty free list, `push` stores the entry at the
free-list head, advances the free-list head to that slot's recorded
`next_free`, and the backing sequence keeps its length; with an empty
free list it appends a new slot.  Moreover a successful removal leaves
the freed position at the head of the free list, so the next `push_back`
allocates exactly that position. -/
theorem c8_allocation_policy (s : IndexList α) (e : Entry α) (i : Nat)
    (nf : Option Nat) (v w : α) (idx : Index) :
    (s.next_free = none →
      s.push e = some ({ s with contents := s.contents ++ [e] }, s.contents.length)) ∧
    (s.next_free = some i → s.contents[i]? = some (Entry.free nf) →
      s.push e = some ({ s with next_free := nf, contents := s.contents.set i e }, i) ∧
      (s.contents.set i e).length = s.contents.length) ∧
    ((s.remove idx).1 = some v →
      ((s.remove idx).2).next_free = some idx.index ∧
      (∀ (s'' : IndexList α) (h' : Index),
        ((s.remove idx).2).pushBack w = some (s'', h') → h'.index = idx.index)) := by
  refine ⟨?_, ?_, ?_⟩
  · intro h
    simp only [IndexList.push, h]
  · intro h1 h2
    refine ⟨by simp only [IndexList.push, h1, h2], List.length_set ..⟩
  · intro hrem
    obtain ⟨hi, ti, e', hh, ht, hc, hg, hv⟩ := remove_fst_some_inv s idx v hrem
    obtain ⟨_, _, hnf', hslot', _, _, _⟩ := remove_success_spec s idx e' hi ti hh ht hc hg
    refine ⟨hnf', ?_⟩
    intro s'' h' hp
    obtain ⟨s1, hpu⟩ := pushBack_alloc_index _ w s'' h' hp
    unfold IndexList.push at hpu
    simp only [hnf', hslot', Option.some.injEq, Prod.mk.injEq] at hpu
    exact hpu.2.symm

/-- Witness for C8: appending into the empty list, and — after pushing
100 and removing it — the freed slot 0 heads the free list and is reused
by the next `push_back`. -/
theorem c8_allocation_policy_witness :
    (IndexList.new Nat).push (Entry.free none) =
      some ({ contents := [Entry.free none], generation := 0, next_free := none,
              head := none, tail := none }, 0) ∧
    ((sOne.remove { index := 0, generation := 0 }).2).next_free = some 0 := by
  constructor
  · exact (c8_allocation_policy (IndexList.new Nat) (Entry.free none) 0 none 0 0
      { index := 0, generation := 0 }).1 rfl
  · exact ((c8_allocation_policy sOne (Entry.free none) 0 none 100 200
      { index := 0, generation := 0 }).2.2 rfl).1

/-! ### Generation accounting -/

theorem applyOp_gen (s : IndexList α) (op : Op α) (s' : IndexList α)
    (hs : applyOp s op = some s') :
    s'.generation = s.generation + opRemoveCount s op := by
  cases op with
  | pushB v =>
    simp only [applyOp] at hs
    cases hp : s.pushBack v with
    | none => rw [hp] at hs; cases hs
    | some pr =>
      obtain ⟨t, h⟩ := pr
      rw [hp] at hs
      injection hs with hs
      subst hs
      simpa [opRemoveCount] using (pushBack_spec s v t h hp).1
  | pushF v =>
    simp only [applyOp] at hs
    cases hp : s.pushFront v with
    | none => rw [hp] at hs; cases hs
    | some pr =>
      obtain ⟨t, h⟩ := pr
      rw [hp] at hs
      injection hs with hs
      subst hs
      simpa [opRemoveCount] using (pushFront_spec s v t h hp).1
  | rem i g =>
    simp only [applyOp] at hs
    injection hs with hs
    subst hs
    cases hr : (s.remove { index := i, generation := g }).1 with
    | some v =>
      obtain ⟨hi, ti, e', hh, ht, hc, hg, _⟩ :=
        remove_fst_some_inv s { index := i, generation := g } v hr
      have := (remove_success_spec s { index := i, generation := g } e' hi ti hh ht hc hg).2.1
      simp only [opRemoveCount, hr]
      omega
    | none =>
      have := remove_fail_eq s { index := i, generation := g } hr
      simp only [opRemoveCount, hr, this]
      omega

theorem runCountFrom_gen (ops : List (Op α)) (s0 s : IndexList α) (n : Nat)
    (h : runCountFrom s0 ops = some (s, n)) : s.generation = s0.generation + n := by
  induction ops generalizing s0 n with
  | nil =>
    simp only [runCountFrom, Option.some.injEq, Prod.mk.injEq] at h
    obtain ⟨hs, hn⟩ := h
    subst hs
    subst hn
    rfl
  | cons op ops ih =>
    simp only [runCountFrom] at h
    split at h
    · cases h
    · rename_i s1 ha
      split at h
      · cases h
      · rename_i t m hrc
        simp only [Option.some.injEq, Prod.mk.injEq] at h
        obtain ⟨hst, hnm⟩ := h
        subst hst
        subst hnm
        have h1 := applyOp_gen s0 op s1 ha
        have h2 := ih s1 m hrc
        omega

/-- Claim C7: the structure generation increases by exactly 1 on each
successful removal, is unchanged by a failed removal and by `push_back` /
`push_front` (lookups are pure functions in this embedding and cannot
change it), and therefore over any panic-free run from the empty list it
equals the number of successful removals performed. -/
theorem c7_generation_counts_removals (α : Type) :
    (∀ (s : IndexList α) (idx : Index) (v : α), (s.remove idx).1 = some v →
      ((s.remove idx).2).generation = s.generation + 1) ∧
    (∀ (s : IndexList α) (idx : Index), (s.remove idx).1 = none →
      ((s.remove idx).2).generation = s.generation) ∧
    (∀ (s s' : IndexList α) (v : α) (h : Index), s.pushBack v = some (s', h) →
      s'.generation = s.generation) ∧
    (∀ (s s' : IndexList α) (v : α) (h : Index), s.pushFront v = some (s', h) →
      s'.generation = s.generation) ∧
    (∀ (ops : List (Op α)) (s : IndexList α) (n : Nat),
      runCountFrom (IndexList.new α) ops = some (s, n) → s.generation = n) := by
  refine ⟨?_, ?_, ?_, ?_, ?_⟩
  · intro s idx v h
    obtain ⟨hi, ti, e', hh, ht, hc, hg, _⟩ := remove_fst_some_inv s idx v h
    exact (remove_success_spec s idx e' hi ti hh ht hc hg).2.1
  · intro s idx h
    rw [remove_fail_eq s idx h]
  · intro s s' v h hp
    exact (pushBack_spec s v s' h hp).1
  · intro s s' v h hp
    exact (pushFront_spec s v s' h hp).1
  · intro ops s n h
    have := runCountFrom_gen ops (IndexList.new α) s n h
    simpa [IndexList.new] using this

/-- Witness for C7: removing the sole element of a one-element list bumps
the generation from 0 to 1; a failed removal on the empty list leaves it
at 0; the two-operation run `push_back 100; remove` performs exactly one
successful removal and ends with generation 1. -/
theorem c7_generation_counts_removals_witness :
    ((sOne.remove { index := 0, generation := 0 }).2).generation = sOne.generation + 1 ∧
    (((IndexList.new Nat).remove { index := 0, generation := 0 }).2).generation =
      (IndexList.new Nat).generation ∧
    c3State.generation = 1 :=
  ⟨(c7_generation_counts_removals Nat).1 sOne { index := 0, generation := 0 } 100 rfl,
   (c7_generation_counts_removals Nat).2.1 (IndexList.new Nat) { index := 0, generation := 0 } rfl,
   (c7_generation_counts_removals Nat).2.2.2.2 [Op.pushB 100, Op.rem 0 0] c3State 1 rfl⟩

/-- Claim C4: the spec states that from every state reachable through the
public API, forward iteration terminates by reaching a `none`
next-reference.  The reachable state after `push_back 100; remove;
push_back 200` refutes this: `remove` leaves the stale `tail = some 0`,
so the next `push_back` reuses slot 0 and then points that very slot's
`next` at itself.  Borrowing iteration from `head` loops forever (it runs
out of any finite fuel, never finishing and never even panicking), and
consuming iteration never finishes either (it panics on the second visit
to the emptied slot). -/
theorem c4_reachable_self_loop_iteration_diverges :
    runOps [Op.pushB (100 : Nat), Op.rem 0 0, Op.pushB 200] = some c4State ∧
    c4State.head = some 0 ∧
    nextAt c4State 0 = some (some 0) ∧
    (∀ fuel : Nat, iterFrom c4State c4State.head fuel = IterOutcome.outOfFuel) ∧
    (∀ fuel : Nat, (intoIterFrom c4State c4State.head fuel).isFinished = false) := by
  have hc : c4State.contents[0]? =
      some (Entry.occupied { item := 200, generation := 1, next := some 0, prev := some 0 }) :=
    rfl
  have hh : c4State.head = some 0 := rfl
  refine ⟨rfl, rfl, rfl, ?_, ?_⟩
  · intro fuel
    rw [hh]
    induction fuel with
    | zero => rfl
    | succ n ih =>
      simp only [iterFrom, hc]
      rw [ih]
  · intro fuel
    rw [hh]
    cases fuel with
    | zero => rfl
    | succ n =>
      cases n with
      | zero => rfl
      | succ m =>
        have hc' : ({ c4State with
            contents := c4State.contents.set 0 (Entry.free none) } : IndexList Nat).contents[0]? =
            some (Entry.free none) := rfl
        simp only [intoIterFrom, hc, hc']
        rfl

/-! ### Liveness and staleness of handles -/

theorem get_of_live (s : IndexList α) (h : Index) (v : α) (hl : Live h v s) :
    s.get h = some v := by
  obtain ⟨e, he, hg, hi⟩ := hl
  simp only [IndexList.get, he]
  rw [if_pos hg, hi]

theorem get_of_stale (s : IndexList α) (h : Index) (hst : Stale h s) :
    s.get h = none := by
  obtain ⟨_, hne⟩ := hst
  cases hc : s.contents[h.index]? with
  | none => simp only [IndexList.get, hc]
  | some e =>
    cases e with
    | free nf => simp only [IndexList.get, hc]
    | occupied e =>
      simp only [IndexList.get, hc]
      rw [if_neg (hne e hc)]

theorem live_preserved (s s' : IndexList α) (h : Index) (v : α) (op : Op α)
    (hl : Live h v s) (hne : op ≠ Op.rem h.index h.generation)
    (ha : applyOp s op = some s') : Live h v s' := by
  obtain ⟨e, he, hg, hi⟩ := hl
  cases op with
  | pushB w =>
    simp only [applyOp] at ha
    cases hp : s.pushBack w with
    | none => rw [hp] at ha; cases ha
    | some pr =>
      obtain ⟨t, h'⟩ := pr
      rw [hp] at ha
      injection ha with ha
      subst ha
      obtain ⟨_, _, _, hwas, _, hforward⟩ := pushBack_spec s w t h' hp
      by_cases hidx : h.index = h'.index
      · rw [hidx] at he
        rcases hwas with hnone | ⟨nf, hfree⟩
        · rw [he] at hnone; cases hnone
        · rw [he] at hfree; cases hfree
      · obtain ⟨e', he', hi', hg'⟩ := hforward h.index e hidx he
        exact ⟨e', he', hg'.trans hg, hi'.trans hi⟩
  | pushF w =>
    simp only [applyOp] at ha
    cases hp : s.pushFront w with
    | none => rw [hp] at ha; cases ha
    | some pr =>
      obtain ⟨t, h'⟩ := pr
      rw [hp] at ha
      injection ha with ha
      subst ha
      obtain ⟨_, _, _, hwas, _, hforward⟩ := pushFront_spec s w t h' hp
      by_cases hidx : h.index = h'.index
      · rw [hidx] at he
        rcases hwas with hnone | ⟨nf, hfree⟩
        · rw [he] at hnone; cases hnone
        · rw [he] at hfree; cases hfree
      · obtain ⟨e', he', hi', hg'⟩ := hforward h.index e hidx he
        exact ⟨e', he', hg'.trans hg, hi'.trans hi⟩
  | rem i g =>
    simp only [applyOp] at ha
    injection ha with ha
    subst ha
    cases hr : (s.remove { index := i, generation := g }).1 with
    | none =>
      rw [remove_fail_eq s _ hr]
      exact ⟨e, he, hg, hi⟩
    | some w =>
      obtain ⟨hi', ti', e'', hh, ht, hc, hgg, _⟩ :=
        remove_fst_some_inv s { index := i, generation := g } w hr
      obtain ⟨_, _, _, _, _, _, hforward⟩ :=
        remove_success_spec s { index := i, generation := g } e'' hi' ti' hh ht hc hgg
      by_cases hidx : h.index = i
      · exfalso
        apply hne
        rw [hidx] at he
        rw [he] at hc
        injection hc with hc
        injection hc with hc
        subst hc
        have h1 : g = h.generation := by
          rw [← hg]
          exact hgg.symm
        rw [hidx, h1]
      · obtain ⟨e', he', hi', hg'⟩ := hforward h.index e hidx he
        exact ⟨e', he', hg'.trans hg, hi'.trans hi⟩

theorem stale_after_remove (s : IndexList α) (h : Index) (v : α)
    (hinv : GenInv s) (hr : (s.remove h).1 = some v) :
    Stale h ((s.remove h).2) := by
  obtain ⟨hi, ti, e, hh, ht, hc, hg, _⟩ := remove_fst_some_inv s h v hr
  obtain ⟨_, hgen, _, hslot, _, _, _⟩ := remove_success_spec s h e hi ti hh ht hc hg
  constructor
  · have hle := hinv h.index e hc
    rw [hgen]
    omega
  · intro e' he'
    rw [hslot] at he'
    cases he'

theorem stale_preserved (s s' : IndexList α) (h : Index) (op : Op α)
    (hst : Stale h s) (ha : applyOp s op = some s') : Stale h s' := by
  obtain ⟨hlt, hocc⟩ := hst
  cases op with
  | pushB w =>
    simp only [applyOp] at ha
    cases hp : s.pushBack w with
    | none => rw [hp] at ha; cases ha
    | some pr =>
      obtain ⟨t, h'⟩ := pr
      rw [hp] at ha
      injection ha with ha
      subst ha
      obtain ⟨hgen, _, hat, _, hbackward, _⟩ := pushBack_spec s w t h' hp
      refine ⟨by rw [hgen]; exact hlt, ?_⟩
      intro e' he'
      by_cases hidx : h.index = h'.index
      · obtain ⟨e₀, he₀, _, hg₀⟩ := hat
        rw [hidx] at he'
        rw [he₀] at he'
        injection he' with he'
        injection he' with he'
        subst he'
        omega
      · obtain ⟨e, he, _, hg'⟩ := hbackward h.index e' hidx he'
        rw [← hg']
        exact hocc e he
  | pushF w =>
    simp only [applyOp] at ha
    cases hp : s.pushFront w with
    | none => rw [hp] at ha; cases ha
    | some pr =>
      obtain ⟨t, h'⟩ := pr
      rw [hp] at ha
      injection ha with ha
      subst ha
      obtain ⟨hgen, _, hat, _, hbackward, _⟩ := pushFront_spec s w t h' hp
      refine ⟨by rw [hgen]; exact hlt, ?_⟩
      intro e' he'
      by_cases hidx : h.index = h'.index
      · obtain ⟨e₀, he₀, _, hg₀⟩ := hat
        rw [hidx] at he'
        rw [he₀] at he'
        injection he' with he'
        injection he' with he'
        subst he'
        omega
      · obtain ⟨e, he, _, hg'⟩ := hbackward h.index e' hidx he'
        rw [← hg']
        exact hocc e he
  | rem i g =>
    simp only [applyOp] at ha
    injection ha with ha
    subst ha
    cases hr : (s.remove { index := i, generation := g }).1 with
    | none =>
      rw [remove_fail_eq s _ hr]
      exact ⟨hlt, hocc⟩
    | some w =>
      obtain ⟨hi', ti', e'', hh, ht, hc, hgg, _⟩ :=
        remove_fst_some_inv s { index := i, generation := g } w hr
      obtain ⟨_, hgen, _, hslot, _, hbackward, _⟩ :=
        remove_success_spec s { index := i, generation := g } e'' hi' ti' hh ht hc hgg
      refine ⟨by rw [hgen]; omega, ?_⟩
      intro e' he'
      by_cases hidx : h.index = i
      · rw [hidx] at he'
        rw [hslot] at he'
        cases he'
      · obtain ⟨e, he, _, hg'⟩ := hbackward h.index e' hidx he'
        rw [← hg']
        exact hocc e he

/-! ### The generation invariant holds on every reachable state -/

theorem genInv_new (α : Type) : GenInv (IndexList.new α) := by
  intro j e h
  simp [IndexList.new] at h

theorem genInv_applyOp (s s' : IndexList α) (op : Op α)
    (hinv : GenInv s) (ha : applyOp s op = some s') : GenInv s' := by
  cases op with
  | pushB w =>
    simp only [applyOp] at ha
    cases hp : s.pushBack w with
    | none => rw [hp] at ha; cases ha
    | some pr =>
      obtain ⟨t, h'⟩ := pr
      rw [hp] at ha
      injection ha with ha
      subst ha
      obtain ⟨hgen, _, hat, _, hbackward, _⟩ := pushBack_spec s w t h' hp
      intro j e' he'
      by_cases hidx : j = h'.index
      · obtain ⟨e₀, he₀, _, hg₀⟩ := hat
        rw [hidx] at he'
        rw [he₀] at he'
        injection he' with he'
        injection he' with he'
        subst he'
        show e₀.generation ≤ t.generation
        omega
      · obtain ⟨e, he, _, hg'⟩ := hbackward j e' hidx he'
        rw [← hg', hgen]
        exact hinv j e he
  | pushF w =>
    simp only [applyOp] at ha
    cases hp : s.pushFront w with
    | none => rw [hp] at ha; cases ha
    | some pr =>
      obtain ⟨t, h'⟩ := pr
      rw [hp] at ha
      injection ha with ha
      subst ha
      obtain ⟨hgen, _, hat, _, hbackward, _⟩ := pushFront_spec s w t h' hp
      intro j e' he'
      by_cases hidx : j = h'.index
      · obtain ⟨e₀, he₀, _, hg₀⟩ := hat
        rw [hidx] at he'
        rw [he₀] at he'
        injection he' with he'
        injection he' with he'
        subst he'
        show e₀.generation ≤ t.generation
        omega
      · obtain ⟨e, he, _, hg'⟩ := hbackward j e' hidx he'
        rw [← hg', hgen]
        exact hinv j e he
  | rem i g =>
    simp only [applyOp] at ha
    injection ha with ha
    subst ha
    cases hr : (s.remove { index := i, generation := g }).1 with
    | none =>
      rw [remove_fail_eq s _ hr]
      exact hinv
    | some w =>
      obtain ⟨hi', ti', e'', hh, ht, hc, hgg, _⟩ :=
        remove_fst_some_inv s { index := i, generation := g } w hr
      obtain ⟨_, hgen, _, hslot, _, hbackward, _⟩ :=
        remove_success_spec s { index := i, generation := g } e'' hi' ti' hh ht hc hgg
      intro j e' he'
      by_cases hidx : j = i
      · rw [hidx] at he'
        rw [hslot] at he'
        cases he'
      · obtain ⟨e, he, _, hg'⟩ := hbackward j e' hidx he'
        rw [← hg', hgen]
        have := hinv j e he
        omega

theorem runFrom_genInv (ops : List (Op α)) (s0 s : IndexList α)
    (h0 : GenInv s0) (hr : runFrom s0 ops = some s) : GenInv s := by
  induction ops generalizing s0 with
  | nil =>
    simp only [runFrom, Option.some.injEq] at hr
    subst hr
    exact h0
  | cons op ops ih =>
    simp only [runFrom] at hr
    split at hr
    · cases hr
    · rename_i s1 ha
      exact ih s1 (genInv_applyOp s0 s1 op h0 ha) hr

theorem reachable_genInv (s : IndexList α) (h : Reachable s) : GenInv s := by
  obtain ⟨ops, hops⟩ := h
  exact runFrom_genInv ops (IndexList.new α) s (genInv_new α) hops

/-- Claim C2: a handle returned by `push_back`/`push_front` is live (its
`get` returns the inserted value), stays live under every later operation
other than its own removal, and once its removal succeeds the handle is
stale: `get` and a second `remove` return absent, and staleness is
preserved by every further operation — including insertions that reuse
the same slot position, which stamp a strictly larger generation.  The
generation bound needed for permanence (`GenInv`) holds on every
reachable state. -/
theorem c2_handle_lifecycle (α : Type) :
    (∀ s : IndexList α, Reachable s → GenInv s) ∧
    (∀ (s s' : IndexList α) (v : α) (h : Index), s.pushBack v = some (s', h) →
      Live h v s' ∧ s'.get h = some v) ∧
    (∀ (s s' : IndexList α) (v : α) (h : Index), s.pushFront v = some (s', h) →
      Live h v s' ∧ s'.get h = some v) ∧
    (∀ (s : IndexList α) (h : Index) (v : α), Live h v s → s.get h = some v) ∧
    (∀ (s s' : IndexList α) (h : Index) (v : α) (op : Op α), Live h v s →
      op ≠ Op.rem h.index h.generation → applyOp s op = some s' → Live h v s') ∧
    (∀ (s : IndexList α) (h : Index) (v : α), GenInv s → (s.remove h).1 = some v →
      Stale h ((s.remove h).2)) ∧
    (∀ (s : IndexList α) (h : Index), Stale h s →
      s.get h = none ∧ (s.remove h).1 = none) ∧
    (∀ (s s' : IndexList α) (h : Index) (op : Op α), Stale h s →
      applyOp s op = some s' → Stale h s') := by
  refine ⟨reachable_genInv, ?_, ?_, get_of_live, live_preserved, stale_after_remove,
    ?_, stale_preserved⟩
  · intro s s' v h hp
    obtain ⟨_, hhg, hat, _, _, _⟩ := pushBack_spec s v s' h hp
    obtain ⟨e, he, hi, hg⟩ := hat
    have hl : Live h v s' := ⟨e, he, by rw [hg, hhg], hi⟩
    exact ⟨hl, get_of_live s' h v hl⟩
  · intro s s' v h hp
    obtain ⟨_, hhg, hat, _, _, _⟩ := pushFront_spec s v s' h hp
    obtain ⟨e, he, hi, hg⟩ := hat
    have hl : Live h v s' := ⟨e, he, by rw [hg, hhg], hi⟩
    exact ⟨hl, get_of_live s' h v hl⟩
  · intro s h hst
    exact ⟨get_of_stale s h hst, remove_fst_eq_none s h (fun e he => hst.2 e he)⟩

/-- Witness for C2 at concrete states: the reachable self-loop state
satisfies the generation invariant; the handle from `push_back 100` into
the empty list reads back 100; it stays live across a later
`push_back 999`; after its successful removal it is stale, `get` and a
second `remove` return absent. -/
theorem c2_handle_lifecycle_witness :
    GenInv c4State ∧
    sOne.get { index := 0, generation := 0 } = some 100 ∧
    Live { index := 0, generation := 0 } 100
      ((applyOp sOne (Op.pushB 999)).getD (IndexList.new Nat)) ∧
    Stale { index := 0, generation := 0 } ((sOne.remove { index := 0, generation := 0 }).2) ∧
    c3State.get { index := 0, generation := 0 } = none ∧
    (c3State.remove { index := 0, generation := 0 }).1 = none := by
  have hst : Stale { index := 0, generation := 0 }
      ((sOne.remove { index := 0, generation := 0 }).2) :=
    (c2_handle_lifecycle Nat).2.2.2.2.2.1 sOne { index := 0, generation := 0 } 100
      ((c2_handle_lifecycle Nat).1 sOne ⟨[Op.pushB 100], rfl⟩) rfl
  have hstc3 : Stale { index := 0, generation := 0 } c3State := hst
  refine ⟨?_, ?_, ?_, hst, ?_, ?_⟩
  · exact (c2_handle_lifecycle Nat).1 c4State ⟨[Op.pushB 100, Op.rem 0 0, Op.pushB 200], rfl⟩
  · exact ((c2_handle_lifecycle Nat).2.1 (IndexList.new Nat) sOne 100
      { index := 0, generation := 0 } rfl).2
  · exact (c2_handle_lifecycle Nat).2.2.2.2.1 sOne _ { index := 0, generation := 0 } 100
      (Op.pushB 999)
      ⟨{ item := 100, generation := 0, next := none, prev := none }, rfl, rfl, rfl⟩
      (by decide) rfl
  · exact ((c2_handle_lifecycle Nat).2.2.2.2.2.2.1 c3State
      { index := 0, generation := 0 } hstc3).1
  · exact ((c2_handle_lifecycle Nat).2.2.2.2.2.2.1 c3State
      { index := 0, generation := 0 } hstc3).2

/-! ### Closed-form computations for pushes on append-only states -/

theorem pushBack_eq_empty (s : IndexList α) (v : α)
    (hnf : s.next_free = none) (hh : s.head = none) (ht : s.tail = none) :
    s.pushBack v = some (
      { s with
          contents := s.contents ++ [newBackEntry s v]
          head := some s.contents.length
          tail := some s.contents.length },
      { index := s.contents.length, generation := s.generation }) := by
  simp only [IndexList.pushBack, IndexList.push, hnf, backTailRewire, ht, hh]
  simp

theorem pushBack_eq_nonempty (s : IndexList α) (v : α) (t : Nat) (e : OccupiedEntry α)
    (hnf : s.next_free = none) (hh : s.head ≠ none) (ht : s.tail = some t)
    (hl : s.contents[t]? = some (Entry.occupied e)) (htlt : t < s.contents.length) :
    s.pushBack v = some (
      { s with
          contents := (s.contents ++ [newBackEntry s v]).set t
            (Entry.occupied { e with next := some s.contents.length })
          tail := some s.contents.length },
      { index := s.contents.length, generation := s.generation }) := by
  have hl1 : (s.contents ++ [newBackEntry s v])[t]? = some (Entry.occupied e) := by
    rw [List.getElem?_append_left htlt]
    exact hl
  simp only [IndexList.pushBack, IndexList.push, hnf, backTailRewire, ht, hl1]
  simp [hh]

theorem pushFront_eq_empty (s : IndexList α) (v : α)
    (hnf : s.next_free = none) (ht : s.tail = none) :
    s.pushFront v = some (
      { s with
          contents := s.contents ++ [newFrontEntry s v]
          head := some s.contents.length
          tail := some s.contents.length },
      { index := s.contents.length, generation := s.generation }) := by
  simp only [IndexList.pushFront, IndexList.push, hnf, frontTailRewire, ht]
  simp

theorem pushFront_eq_nonempty (s : IndexList α) (v : α) (t : Nat) (e : OccupiedEntry α)
    (hnf : s.next_free = none) (ht : s.tail = some t)
    (hl : s.contents[t]? = some (Entry.occupied e)) (htlt : t < s.contents.length) :
    s.pushFront v = some (
      { s with
          contents := (s.contents ++ [newFrontEntry s v]).set t
            (Entry.occupied { e with prev := some s.contents.length })
          head := some s.contents.length },
      { index := s.contents.length, generation := s.generation }) := by
  have hl1 : (s.contents ++ [newFrontEntry s v])[t]? = some (Entry.occupied e) := by
    rw [List.getElem?_append_left htlt]
    exact hl
  simp only [IndexList.pushFront, IndexList.push, hnf, frontTailRewire, ht, hl1]
  simp

/-! ### Shape of push_back-only states -/

theorem backShape_new (α : Type) : BackShape (IndexList.new α) [] := by
  refine ⟨rfl, rfl, rfl, ?_, rfl, rfl⟩
  intro i hi
  simp at hi

theorem backShape_push (s : IndexList α) (l : List α) (v : α) (hs : BackShape s l) :
    ∃ (s' : IndexList α) (h' : Index),
      s.pushBack v = some (s', h') ∧ BackShape s' (l ++ [v]) := by
  obtain ⟨hnf, hgen, hlen, hslots, hhead, htail⟩ := hs
  by_cases hl0 : l.length = 0
  · have hle : l = [] := List.length_eq_zero.mp hl0
    subst hle
    have hh : s.head = none := by simp [hhead]
    have ht : s.tail = none := by simp [htail]
    have hc0 : s.contents = [] := List.length_eq_zero.mp (by rw [hlen]; rfl)
    have hne : newBackEntry s v =
        Entry.occupied { item := v, generation := 0, next := none, prev := none } := by
      unfold newBackEntry
      rw [hh, hgen]
    refine ⟨_, _, pushBack_eq_empty s v hnf hh ht, hnf, hgen, ?_, ?_, ?_, ?_⟩
    · simp [hc0]
    · intro i hi
      have hi0 : i = 0 := by simpa using hi
      subst hi0
      refine ⟨v, rfl, ?_⟩
      simp [hc0, hne]
    · simp [hc0]
    · simp [hc0]
  · have hh' : s.head = some 0 := by rw [hhead, if_neg hl0]
    have hhne : s.head ≠ none := by rw [hh']; simp
    have ht : s.tail = some (l.length - 1) := by rw [htail, if_neg hl0]
    have hn1 : l.length - 1 < l.length := by omega
    obtain ⟨w, hw, hew⟩ := hslots (l.length - 1) hn1
    have htlt : l.length - 1 < s.contents.length := by rw [hlen]; exact hn1
    refine ⟨_, _, pushBack_eq_nonempty s v (l.length - 1) _ hnf hhne ht hew htlt,
      hnf, hgen, ?_, ?_, ?_, ?_⟩
    · simp [List.length_set, List.length_append, hlen]
    · intro i hi
      have hi' : i < l.length + 1 := by
        simpa [List.length_append] using hi
      by_cases hin : i = l.length
      · subst hin
        refine ⟨v, List.getElem?_concat_length l v, ?_⟩
        rw [List.getElem?_set_ne (by omega : l.length - 1 ≠ l.length)]
        have hcat : (s.contents ++ [newBackEntry s v])[l.length]? = some (newBackEntry s v) := by
          rw [← hlen]
          exact List.getElem?_concat_length ..
        have hne : newBackEntry s v =
            Entry.occupied { item := v, generation := 0, next := none, prev := some (l.length - 1) } := by
          unfold newBackEntry
          rw [hh', hgen, ht]
        rw [hcat, hne]
        simp [List.length_append, hl0]
      · by_cases hin1 : i = l.length - 1
        · subst hin1
          refine ⟨w, ?_, ?_⟩
          · rw [List.getElem?_append_left (by omega)]
            exact hw
          · rw [List.getElem?_set_self (by simp [List.length_append]; omega)]
            have h1 : ¬(l.length - 1 + 1 < l.length) := by omega
            have h2 : l.length - 1 + 1 < (l ++ [v]).length := by
              simp [List.length_append]
              omega
            rw [if_pos h2]
            have h3 : l.length - 1 + 1 = l.length := by omega
            rw [h3, hlen]
        · have hilt : i < l.length := by omega
          obtain ⟨u, hu, heu⟩ := hslots i hilt
          refine ⟨u, ?_, ?_⟩
          · rw [List.getElem?_append_left hilt]
            exact hu
          · rw [List.getElem?_set_ne (fun h => hin1 h.symm),
              List.getElem?_append_left (by rw [hlen]; exact hilt)]
            rw [heu]
            by_cases h1 : i + 1 < l.length
            · have h2 : i + 1 < (l ++ [v]).length := by
                simp [List.length_append]
                omega
              rw [if_pos h1, if_pos h2]
            · have h12 : i = l.length - 1 := by omega
              exact absurd h12 hin1
    · show s.head = _
      rw [hh']
      simp [List.length_append]
    · show some s.contents.length = _
      rw [hlen]
      simp [List.length_append]

theorem backShape_iter (s : IndexList α) (l : List α) (hs : BackShape s l) :
    ∀ (d k : Nat), k + d = l.length → 1 ≤ d →
      iterFrom s (some k) d = IterOutcome.finished (l.drop k) := by
  obtain ⟨hnf, hgen, hlen, hslots, hhead, htail⟩ := hs
  intro d
  induction d with
  | zero =>
    intro k hk hd
    omega
  | succ d ih =>
    intro k hk _
    have hklt : k < l.length := by omega
    obtain ⟨v, hv, he⟩ := hslots k hklt
    obtain ⟨_, hvk⟩ := List.getElem?_eq_some_iff.mp hv
    simp only [iterFrom, he]
    by_cases hnext : k + 1 < l.length
    · rw [if_pos hnext]
      have hd1 : 1 ≤ d := by omega
      rw [ih (k + 1) (by omega) hd1]
      rw [List.drop_eq_getElem_cons hklt, hvk]
    · rw [if_neg hnext]
      have hk1 : k + 1 = l.length := by omega
      simp only [iterFrom]
      rw [List.drop_eq_getElem_cons hklt, hvk, hk1, List.drop_length]

theorem backShape_iterAll (s : IndexList α) (l : List α) (hs : BackShape s l) :
    s.iterAll = IterOutcome.finished l := by
  unfold IndexList.iterAll
  by_cases hl0 : l.length = 0
  · have hle : l = [] := List.length_eq_zero.mp hl0
    subst hle
    have hh : s.head = none := by simp [hs.2.2.2.2.1]
    rw [hh]
    simp [iterFrom]
  · have hh : s.head = some 0 := by rw [hs.2.2.2.2.1, if_neg hl0]
    rw [hh, hs.2.2.1]
    have := backShape_iter s l hs l.length 0 (by omega) (by omega)
    simpa using this

theorem pushBackAll_shape (l : List α) :
    ∀ (s : IndexList α) (acc : List α), BackShape s acc →
      ∃ s', pushBackAll s l = some s' ∧ BackShape s' (acc ++ l) := by
  induction l with
  | nil =>
    intro s acc hs
    exact ⟨s, rfl, by simpa using hs⟩
  | cons v l ih =>
    intro s acc hs
    obtain ⟨s1, h1, hp, hs1⟩ := backShape_push s acc v hs
    obtain ⟨s', hrun, hs'⟩ := ih s1 (acc ++ [v]) hs1
    refine ⟨s', ?_, by simpa [List.append_assoc] using hs'⟩
    simp only [pushBackAll, hp]
    exact hrun

/-! ### Shape of push_front-only states -/

theorem frontShape_new (α : Type) : FrontShape (IndexList.new α) [] := by
  refine ⟨rfl, rfl, rfl, ?_, rfl, rfl⟩
  intro k hk
  simp at hk

theorem frontShape_push (s : IndexList α) (l : List α) (v : α) (hs : FrontShape s l) :
    ∃ (s' : IndexList α) (h' : Index),
      s.pushFront v = some (s', h') ∧ FrontShape s' (l ++ [v]) := by
  obtain ⟨hnf, hgen, hlen, hslots, hhead, htail⟩ := hs
  by_cases hl0 : l.length = 0
  · have hle : l = [] := List.length_eq_zero.mp hl0
    subst hle
    have hh : s.head = none := by simp [hhead]
    have ht : s.tail = none := by simp [htail]
    have hc0 : s.contents = [] := List.length_eq_zero.mp (by rw [hlen]; rfl)
    have hne : newFrontEntry s v =
        Entry.occupied { item := v, generation := 0, next := none, prev := none } := by
      unfold newFrontEntry
      rw [hh, hgen]
    refine ⟨_, _, pushFront_eq_empty s v hnf ht, hnf, hgen, ?_, ?_, ?_, ?_⟩
    · simp [hc0]
    · intro k hk
      have hk0 : k = 0 := by simpa using hk
      subst hk0
      refine ⟨v, rfl, ?_⟩
      simp [hc0, hne]
    · simp [hc0]
    · simp [hc0]
  · have hh' : s.head = some (l.length - 1) := by rw [hhead, if_neg hl0]
    have ht : s.tail = some 0 := by rw [htail, if_neg hl0]
    have h0lt : (0 : Nat) < l.length := by omega
    obtain ⟨w, hw, hew⟩ := hslots 0 h0lt
    have htlt : (0 : Nat) < s.contents.length := by rw [hlen]; exact h0lt
    have hne : newFrontEntry s v =
        Entry.occupied { item := v, generation := 0, next := some (l.length - 1), prev := none } := by
      unfold newFrontEntry
      rw [hh', hgen]
    refine ⟨_, _, pushFront_eq_nonempty s v 0 _ hnf ht hew htlt,
      hnf, hgen, ?_, ?_, ?_, ?_⟩
    · simp [List.length_set, List.length_append, hlen]
    · intro k hk
      have hk' : k < l.length + 1 := by
        simpa [List.length_append] using hk
      by_cases hk0 : k = 0
      · subst hk0
        refine ⟨w, ?_, ?_⟩
        · rw [List.getElem?_append_left h0lt]
          exact hw
        · rw [List.getElem?_set_self (by simp [List.length_append])]
          have h2' : (2 : Nat) ≤ l.length + 1 := by omega
          have harr : l.length + 1 - 1 = l.length := by omega
          simp [hlen, List.length_append, h2', harr]
      · by_cases hkn : k = l.length
        · subst hkn
          refine ⟨v, List.getElem?_concat_length l v, ?_⟩
          rw [List.getElem?_set_ne (fun h => hk0 h.symm)]
          have hcat : (s.contents ++ [newFrontEntry s v])[l.length]? =
              some (newFrontEntry s v) := by
            rw [← hlen]
            exact List.getElem?_concat_length ..
          rw [hcat, hne]
          simp [hk0]
        · have hklt : k < l.length := by omega
          obtain ⟨u, hu, heu⟩ := hslots k hklt
          refine ⟨u, ?_, ?_⟩
          · rw [List.getElem?_append_left hklt]
            exact hu
          · rw [List.getElem?_set_ne (fun h => hk0 h.symm),
              List.getElem?_append_left (by rw [hlen]; exact hklt)]
            rw [heu]
            simp [hk0]
    · show some s.contents.length = _
      rw [hlen]
      simp [List.length_append]
    · show s.tail = _
      rw [ht]
      simp [List.length_append]

theorem iterFrom_step (s : IndexList α) (i fuel : Nat) (e : OccupiedEntry α)
    (he : s.contents[i]? = some (Entry.occupied e)) :
    iterFrom s (some i) (fuel + 1) =
      match iterFrom s e.next fuel with
      | IterOutcome.finished items => IterOutcome.finished (e.item :: items)
      | IterOutcome.panicked items => IterOutcome.panicked (e.item :: items)
      | IterOutcome.outOfFuel => IterOutcome.outOfFuel := by
  simp only [iterFrom, he]

theorem frontShape_iter (s : IndexList α) (l : List α) (hs : FrontShape s l) :
    ∀ k, k < l.length →
      iterFrom s (some k) (k + 1) = IterOutcome.finished ((l.take (k + 1)).reverse) := by
  obtain ⟨hnf, hgen, hlen, hslots, hhead, htail⟩ := hs
  intro k
  induction k with
  | zero =>
    intro hk
    obtain ⟨v, hv, he⟩ := hslots 0 hk
    have he' : s.contents[0]? = some (Entry.occupied { item := v, generation := 0, next := none, prev := if 2 ≤ l.length then some (l.length - 1) else none }) := by
      rw [he]
      simp
    rw [iterFrom_step s 0 0 _ he']
    dsimp only
    rw [show iterFrom s none 0 = (IterOutcome.finished [] : IterOutcome α) from rfl]
    rw [List.take_succ, hv]
    simp
  | succ k ih =>
    intro hk
    obtain ⟨v, hv, he⟩ := hslots (k + 1) hk
    have he' : s.contents[k + 1]? = some (Entry.occupied { item := v, generation := 0, next := some k, prev := none }) := by
      rw [he]
      simp
    rw [iterFrom_step s (k + 1) (k + 1) _ he']
    dsimp only
    rw [ih (by omega)]
    show IterOutcome.finished (v :: (List.take (k + 1) l).reverse) = _
    rw [show List.take (k + 1 + 1) l = List.take (k + 1) l ++ [v] from by
      rw [List.take_succ, hv]
      rfl]
    simp

theorem frontShape_iterAll (s : IndexList α) (l : List α) (hs : FrontShape s l) :
    s.iterAll = IterOutcome.finished l.reverse := by
  unfold IndexList.iterAll
  by_cases hl0 : l.length = 0
  · have hle : l = [] := List.length_eq_zero.mp hl0
    subst hle
    have hh : s.head = none := by simp [hs.2.2.2.2.1]
    rw [hh]
    simp [iterFrom]
  · have hh : s.head = some (l.length - 1) := by rw [hs.2.2.2.2.1, if_neg hl0]
    rw [hh, hs.2.2.1]
    have hfuel : l.length = (l.length - 1) + 1 := by omega
    nth_rewrite 2 [hfuel]
    rw [frontShape_iter s l hs (l.length - 1) (by omega)]
    rw [← hfuel, List.take_length]

theorem frontShape_headTailVal (s : IndexList α) (l : List α) (hs : FrontShape s l) :
    s.headVal = l.getLast? ∧ s.tailVal = l.head? := by
  obtain ⟨hnf, hgen, hlen, hslots, hhead, htail⟩ := hs
  by_cases hl0 : l.length = 0
  · have hle : l = [] := List.length_eq_zero.mp hl0
    subst hle
    have hh : s.head = none := by simp [hhead]
    have ht : s.tail = none := by simp [htail]
    constructor
    · simp [IndexList.headVal, hh]
    · simp [IndexList.tailVal, ht]
  · have hh : s.head = some (l.length - 1) := by rw [hhead, if_neg hl0]
    have ht : s.tail = some 0 := by rw [htail, if_neg hl0]
    obtain ⟨v, hv, he⟩ := hslots (l.length - 1) (by omega)
    obtain ⟨u, hu, he0⟩ := hslots 0 (by omega)
    constructor
    · simp only [IndexList.headVal, hh, he]
      rw [List.getLast?_eq_getElem?, hv]
    · simp only [IndexList.tailVal, ht, he0]
      rw [List.head?_eq_getElem?, hu]

theorem pushFrontAll_shape (l : List α) :
    ∀ (s : IndexList α) (acc : List α), FrontShape s acc →
      ∃ s', pushFrontAll s l = some s' ∧ FrontShape s' (acc ++ l) := by
  induction l with
  | nil =>
    intro s acc hs
    exact ⟨s, rfl, by simpa using hs⟩
  | cons v l ih =>
    intro s acc hs
    obtain ⟨s1, h1, hp, hs1⟩ := frontShape_push s acc v hs
    obtain ⟨s', hrun, hs'⟩ := ih s1 (acc ++ [v]) hs1
    refine ⟨s', ?_, by simpa [List.append_assoc] using hs'⟩
    simp only [pushFrontAll, hp]
    exact hrun

/-- Claim C5: pushing a sequence of values with `push_back` only, forward
iteration yields exactly that sequence in insertion order; pushing with
`push_front` only, the head accessor returns the last pushed value, the
tail accessor the first pushed value, and forward iteration yields the
values in reverse insertion order (e.g. push-front 100, 200, 300 gives
head 300, tail 100, iteration [300, 200, 100]). -/
theorem c5_iteration_order (vs : List α) :
    (∃ sb : IndexList α, pushBackAll (IndexList.new α) vs = some sb ∧
      sb.iterAll = IterOutcome.finished vs) ∧
    (∃ sf : IndexList α, pushFrontAll (IndexList.new α) vs = some sf ∧
      sf.iterAll = IterOutcome.finished vs.reverse ∧
      sf.headVal = vs.getLast? ∧ sf.tailVal = vs.head?) := by
  constructor
  · obtain ⟨sb, hrun, hshape⟩ := pushBackAll_shape vs (IndexList.new α) [] (backShape_new α)
    rw [List.nil_append] at hshape
    exact ⟨sb, hrun, backShape_iterAll sb vs hshape⟩
  · obtain ⟨sf, hrun, hshape⟩ := pushFrontAll_shape vs (IndexList.new α) [] (frontShape_new α)
    rw [List.nil_append] at hshape
    obtain ⟨hhv, htv⟩ := frontShape_headTailVal sf vs hshape
    exact ⟨sf, hrun, frontShape_iterAll sf vs hshape, hhv, htv⟩

end DoubleLinked
